import Mathlib

/-!
Shallow embedding of the anomaly-detection core of `backend/api/anomalies.py`
(e-commerce analytics dashboard).  Python floats are modelled as real numbers,
calendar dates as integers counting days (so `date + timedelta(days = 1)` is
`d + 1` and `(e - s).days` is `e - s`).  The detectors, the gap-filling
normalizer and the endpoint assembly are translated function by function;
the SQL data fetch is outside the modelled core (its result is the
`obs` argument below).
-/

namespace Ecom

/-- Python slice `series_vals[start:end]` with `start = max(0, i - window)` and
`end = i`, as in both detectors: the up-to-`window` values strictly preceding
index `i`.  A negative `window` makes `start > end`, which in Python yields the
empty slice; `Nat` subtraction in `take` reproduces that. -/
def winVals (vals : List ℝ) (window : ℤ) (i : ℕ) : List ℝ :=
  let start := (max 0 ((i : ℤ) - window)).toNat
  (vals.drop start).take (i - start)

/-- Python `sum(window_vals)/len(window_vals)` (line `mean = ...` of
`_detect_zscore`).  Division by zero returns 0 in Lean; the code only calls
this with at least 2 elements. -/
noncomputable def mean (l : List ℝ) : ℝ := l.sum / l.length

/-- Python `sum((x-mean)**2 for x in window_vals) / (len(window_vals)-0)`:
the population variance (divisor `len`, the `-0` is in the source). -/
noncomputable def popVar (l : List ℝ) : ℝ :=
  ((l.map fun x => (x - mean l) ^ 2).sum) / l.length

/-- Python `std = math.sqrt(var) if var > 0 else 0.0`. -/
noncomputable def stdCode (l : List ℝ) : ℝ :=
  if popVar l > 0 then Real.sqrt (popVar l) else 0

/-- The spec's formulation of the population standard deviation,
`sqrt(mean((x - mean)^2 for x in W))`, with no zero-guard.  It agrees with
`stdCode` because the variance is never negative. -/
noncomputable def sqrtStd (l : List ℝ) : ℝ := Real.sqrt (popVar l)

/-- Loop body of `_detect_zscore` at index `i`: take the preceding window,
skip (`continue`) if it has fewer than 2 values or zero standard deviation,
otherwise append `(i, z)` when `|z| >= threshold`. -/
noncomputable def zscoreStep (vals : List ℝ) (window : ℤ) (threshold : ℝ)
    (i : ℕ) : Option (ℕ × ℝ) :=
  let w := winVals vals window i
  if w.length < 2 then none
  else if stdCode w = 0 then none
  else
    let z := (vals.getD i 0 - mean w) / stdCode w
    if threshold ≤ |z| then some (i, z) else none

/-- `_detect_zscore(series_vals, window, threshold)`: the `for i in range(n)`
loop collecting the emitted `(index, score)` pairs. -/
noncomputable def detectZscore (vals : List ℝ) (window : ℤ) (threshold : ℝ) :
    List (ℕ × ℝ) :=
  (List.range vals.length).filterMap (zscoreStep vals window threshold)

/-- CPython `statistics.quantiles(data, n=4)` cut point number `i`
(`i ∈ {1,2,3}`), default `method='exclusive'`, applied to already
sorted `d`: `m = ld + 1`; `j = i*m // 4` clamped to `1 .. ld-1`;
`delta = i*m - j*4`; result `(d[j-1]*(4-delta) + d[j]*delta) / 4`. -/
noncomputable def quantileExc (d : List ℝ) (i : ℕ) : ℝ :=
  let ld := d.length
  let m := ld + 1
  let j := max 1 (min (ld - 1) (i * m / 4))
  let delta : ℤ := (i * m : ℤ) - (j : ℤ) * 4
  (d.getD (j - 1) 0 * (4 - (delta : ℝ)) + d.getD j 0 * (delta : ℝ)) / 4

/-- `statistics.quantiles(window_vals, n=4)[i-1]`: CPython sorts the data
first, then interpolates.  Any correct sort of a list of plain numbers yields
the same list, so we use `insertionSort` with `≤`. -/
noncomputable def quantiles4 (l : List ℝ) (i : ℕ) : ℝ :=
  quantileExc (l.insertionSort (· ≤ ·)) i

/-- Loop body of `_detect_iqr` at index `i`: same causal window, skip when
fewer than 4 values or zero IQR, otherwise the `if / elif` fence tests of the
source, upper fence checked first. -/
noncomputable def iqrStep (vals : List ℝ) (window : ℤ) (threshold : ℝ)
    (i : ℕ) : Option (ℕ × ℝ) :=
  let w := winVals vals window i
  if w.length < 4 then none
  else
    let q1 := quantiles4 w 1
    let q3 := quantiles4 w 3
    let iqr := q3 - q1
    if iqr = 0 then none
    else
      let v := vals.getD i 0
      if v > q3 + threshold * iqr then some (i, (v - q3) / iqr)
      else if v < q1 - threshold * iqr then some (i, (q1 - v) / iqr)
      else none

/-- `_detect_iqr(series_vals, window, threshold)`: the `for i in range(n)`
loop collecting the emitted `(index, score)` pairs. -/
noncomputable def detectIqr (vals : List ℝ) (window : ℤ) (threshold : ℝ) :
    List (ℕ × ℝ) :=
  (List.range vals.length).filterMap (iqrStep vals window threshold)

/-- Python `idx = {s[0]: s[1] for s in series}` followed by
`idx.get(d, 0.0)`: a left fold where a later binding of the same day
overwrites an earlier one, defaulting to `0.0`. -/
noncomputable def dictGet (obs : List (ℤ × ℝ)) (d : ℤ) : ℝ :=
  obs.foldl (fun acc p => if p.1 = d then p.2 else acc) 0

/-- `_fill_missing_days(series, start_date, end_date)`: the `while d <=
end_date` loop emitting `(d, idx.get(d, 0.0))` for each day, rendered as a map
over the day offsets `0 .. (e-s)`; when `s > e` the loop body never runs. -/
noncomputable def fillMissingDays (obs : List (ℤ × ℝ)) (s e : ℤ) : List (ℤ × ℝ) :=
  (List.range (e - s + 1).toNat).map fun k : ℕ => (s + (k : ℤ), dictGet obs (s + (k : ℤ)))

/-- The `method` query parameter, restricted by the route's regex
`^(zscore|iqr)$`. -/
inductive Method where
  | zscore
  | iqr
deriving DecidableEq

def Method.str : Method → String
  | .zscore => "zscore"
  | .iqr => "iqr"

/-- One element of the `anomalies` list of the response (`AnomalyPoint`
pydantic model). -/
structure AnomalyPoint where
  day : ℤ
  revenue : ℝ
  score : ℝ
  reason : String

/-- The `AnomalyResponse` pydantic model returned by `/anomalies/detect`. -/
structure AnomalyResponse where
  series : List (ℤ × ℝ)
  anomalies : List AnomalyPoint
  method : Method
  window : ℤ
  threshold : ℝ

/-- The reason string `f"{method} (window={window}, threshold={threshold})"`.
Python's decimal rendering of the float `threshold` has no counterpart for a
real number, so the threshold digits are abstracted; no claim depends on the
rendered text. -/
def mkReason (method : Method) (window : ℤ) : String :=
  method.str ++ " (window=" ++ toString window ++ ", threshold=...)"

/-- `detect_anomalies` endpoint body after default-date substitution: reject
`start_date > end_date` with the HTTP 400 detail string, otherwise fill the
series, run the selected detector and format each `(index, score)` into an
`AnomalyPoint` via `days[idx]` / `values[idx]` (modelled with `getD`, total;
in-bounds use is proved separately). -/
noncomputable def detectAnomalies (obs : List (ℤ × ℝ)) (method : Method)
    (window : ℤ) (threshold : ℝ) (startDate endDate : ℤ) :
    Except String AnomalyResponse :=
  if startDate > endDate then
    .error "start_date must be <= end_date"
  else
    let series := fillMissingDays obs startDate endDate
    let days := series.map Prod.fst
    let values := series.map Prod.snd
    let rawAnoms := match method with
      | .zscore => detectZscore values window threshold
      | .iqr => detectIqr values window threshold
    let anomPoints := rawAnoms.map fun p =>
      { day := days.getD p.1 0
        revenue := values.getD p.1 0
        score := p.2
        reason := mkReason method window : AnomalyPoint }
    .ok { series := series, anomalies := anomPoints, method := method,
          window := window, threshold := threshold }

/-! ### Basic facts about the statistics helpers -/

theorem popVar_nonneg (l : List ℝ) : 0 ≤ popVar l := by
  unfold popVar
  apply div_nonneg
  · refine List.sum_nonneg fun x hx => ?_
    obtain ⟨y, _, rfl⟩ := List.mem_map.mp hx
    positivity
  · positivity

theorem stdCode_eq_sqrtStd (l : List ℝ) : stdCode l = sqrtStd l := by
  unfold stdCode sqrtStd
  rcases lt_or_eq_of_le (popVar_nonneg l) with h | h
  · rw [if_pos h]
  · rw [if_neg (by rw [← h]; exact lt_irrefl 0), ← h, Real.sqrt_zero]

theorem stdCode_eq_zero (l : List ℝ) : stdCode l = 0 ↔ popVar l = 0 := by
  rw [stdCode_eq_sqrtStd]
  exact Real.sqrt_eq_zero (popVar_nonneg l)

theorem winVals_eq_spec (vals : List ℝ) (window : ℤ) (i : ℕ) :
    winVals vals window i =
      (vals.take i).drop ((max 0 ((i : ℤ) - window)).toNat) := by
  rw [List.drop_take]
  rfl

theorem winVals_length_le (vals : List ℝ) (window : ℤ) (i : ℕ) :
    (winVals vals window i).length ≤ i := by
  unfold winVals
  simp only [List.length_take, List.length_drop]
  omega

/-! ### Membership characterization of the detectors -/

theorem mem_detectZscore {vals : List ℝ} {window : ℤ} {threshold z : ℝ}
    {i : ℕ} :
    (i, z) ∈ detectZscore vals window threshold ↔
      i < vals.length ∧ 2 ≤ (winVals vals window i).length ∧
        stdCode (winVals vals window i) ≠ 0 ∧
        z = (vals.getD i 0 - mean (winVals vals window i)) /
              stdCode (winVals vals window i) ∧
        threshold ≤ |z| := by
  simp only [detectZscore, zscoreStep, List.mem_filterMap, List.mem_range]
  constructor
  · rintro ⟨a, ha, hfa⟩
    split_ifs at hfa with h1 h2 h3
    cases hfa
    exact ⟨ha, by omega, h2, rfl, h3⟩
  · rintro ⟨hi, hlen, hstd, rfl, hthr⟩
    refine ⟨i, hi, ?_⟩
    rw [if_neg (by omega), if_neg hstd, if_pos hthr]

/-- C1: the z-score detector considers each index `i` of the input with the
causal baseline `W = values[max(0, i-window) .. i)` of strictly preceding
values; it emits `(i, z)` with `z = (values[i] - mean W) / std W` (population
standard deviation, divisor `|W|`) exactly when `|W| ≥ 2`, `std W ≠ 0` and
`|z| ≥ threshold` (equality included); otherwise `i` is skipped. -/
theorem zscore_spec (vals : List ℝ) (window : ℤ) (threshold z : ℝ) (i : ℕ) :
    (i, z) ∈ detectZscore vals window threshold ↔
      ∃ hi : i < vals.length,
        2 ≤ ((vals.take i).drop ((max 0 ((i : ℤ) - window)).toNat)).length ∧
        sqrtStd ((vals.take i).drop ((max 0 ((i : ℤ) - window)).toNat)) ≠ 0 ∧
        z = (vals.get ⟨i, hi⟩ -
              mean ((vals.take i).drop ((max 0 ((i : ℤ) - window)).toNat))) /
            sqrtStd ((vals.take i).drop ((max 0 ((i : ℤ) - window)).toNat)) ∧
        threshold ≤ |z| := by
  rw [mem_detectZscore, ← winVals_eq_spec, ← stdCode_eq_sqrtStd]
  constructor
  · rintro ⟨hi, h⟩
    refine ⟨hi, ?_⟩
    rwa [List.get_eq_getElem, ← List.getD_eq_getElem vals 0 hi]
  · rintro ⟨hi, h⟩
    refine ⟨hi, ?_⟩
    rwa [List.get_eq_getElem, ← List.getD_eq_getElem vals 0 hi] at h

theorem mem_detectIqr {vals : List ℝ} {window : ℤ} {threshold s : ℝ}
    {i : ℕ} :
    (i, s) ∈ detectIqr vals window threshold ↔
      i < vals.length ∧ 4 ≤ (winVals vals window i).length ∧
        quantiles4 (winVals vals window i) 3 -
            quantiles4 (winVals vals window i) 1 ≠ 0 ∧
        ((vals.getD i 0 > quantiles4 (winVals vals window i) 3 +
            threshold * (quantiles4 (winVals vals window i) 3 -
              quantiles4 (winVals vals window i) 1) ∧
          s = (vals.getD i 0 - quantiles4 (winVals vals window i) 3) /
              (quantiles4 (winVals vals window i) 3 -
                quantiles4 (winVals vals window i) 1)) ∨
         (¬ vals.getD i 0 > quantiles4 (winVals vals window i) 3 +
            threshold * (quantiles4 (winVals vals window i) 3 -
              quantiles4 (winVals vals window i) 1) ∧
          vals.getD i 0 < quantiles4 (winVals vals window i) 1 -
            threshold * (quantiles4 (winVals vals window i) 3 -
              quantiles4 (winVals vals window i) 1) ∧
          s = (quantiles4 (winVals vals window i) 1 - vals.getD i 0) /
              (quantiles4 (winVals vals window i) 3 -
                quantiles4 (winVals vals window i) 1))) := by
  simp only [detectIqr, iqrStep, List.mem_filterMap, List.mem_range]
  constructor
  · rintro ⟨a, ha, hfa⟩
    split_ifs at hfa with h1 h2 h3 h4
    all_goals cases hfa
    · exact ⟨ha, by omega, h2, Or.inl ⟨h3, rfl⟩⟩
    · exact ⟨ha, by omega, h2, Or.inr ⟨h3, h4, rfl⟩⟩
  · rintro ⟨hi, hlen, hiqr, h | h⟩
    · refine ⟨i, hi, ?_⟩
      rw [if_neg (by omega), if_neg hiqr, if_pos h.1, h.2]
    · refine ⟨i, hi, ?_⟩
      rw [if_neg (by omega), if_neg hiqr, if_neg h.1, if_pos h.2.1, h.2.2]

/-! ### The day-to-revenue dictionary -/

theorem dictFold_no_key (obs : List (ℤ × ℝ)) (d : ℤ) (a : ℝ)
    (h : d ∉ obs.map Prod.fst) :
    obs.foldl (fun acc p => if p.1 = d then p.2 else acc) a = a := by
  induction obs generalizing a with
  | nil => rfl
  | cons p l ih =>
    simp only [List.map_cons, List.mem_cons, not_or] at h
    rw [List.foldl_cons, if_neg fun hc => h.1 hc.symm, ih _ h.2]

theorem dictFold_key (obs : List (ℤ × ℝ)) (d : ℤ) (a : ℝ)
    (h : d ∈ obs.map Prod.fst) :
    ∃ r, (d, r) ∈ obs ∧
      obs.foldl (fun acc p => if p.1 = d then p.2 else acc) a = r := by
  induction obs generalizing a with
  | nil => simp at h
  | cons p l ih =>
    by_cases hl : d ∈ l.map Prod.fst
    · obtain ⟨r, hr, he⟩ := ih (if p.1 = d then p.2 else a) hl
      exact ⟨r, List.mem_cons_of_mem _ hr, he⟩
    · simp only [List.map_cons, List.mem_cons] at h
      have hd : d = p.1 := h.resolve_right hl
      refine ⟨p.2, ?_, ?_⟩
      · simp [hd]
      · rw [List.foldl_cons, if_pos hd.symm, dictFold_no_key l d p.2 hl]

theorem dictGet_not_mem {obs : List (ℤ × ℝ)} {d : ℤ}
    (h : d ∉ obs.map Prod.fst) : dictGet obs d = 0 :=
  dictFold_no_key obs d 0 h

theorem dictGet_key {obs : List (ℤ × ℝ)} {d : ℤ}
    (h : d ∈ obs.map Prod.fst) :
    ∃ r, (d, r) ∈ obs ∧ dictGet obs d = r :=
  dictFold_key obs d 0 h

/-! ### The gap-filled series -/

theorem fillMissingDays_length (obs : List (ℤ × ℝ)) (s e : ℤ) :
    (fillMissingDays obs s e).length = (e - s + 1).toNat := by
  rw [fillMissingDays, List.length_map, List.length_range]

theorem fillMissingDays_get (obs : List (ℤ × ℝ)) (s e : ℤ) (k : ℕ)
    (hk : k < (fillMissingDays obs s e).length) :
    (fillMissingDays obs s e).get ⟨k, hk⟩ = (s + k, dictGet obs (s + k)) := by
  simp only [fillMissingDays, List.get_eq_getElem, List.getElem_map,
    List.getElem_range]

theorem fillMissingDays_days (obs : List (ℤ × ℝ)) (s e : ℤ) :
    (fillMissingDays obs s e).map Prod.fst =
      (List.range (e - s + 1).toNat).map fun k : ℕ => s + (k : ℤ) := by
  rw [fillMissingDays, List.map_map]
  rfl

theorem fillMissingDays_days_lt (obs : List (ℤ × ℝ)) (s e : ℤ) :
    ((fillMissingDays obs s e).map Prod.fst).Pairwise (· < ·) := by
  rw [fillMissingDays_days, List.pairwise_map]
  refine (List.pairwise_lt_range _).imp ?_
  intro a b h
  omega

/-- C3: for `start_date ≤ end_date` the normalizer returns exactly
`(end_date - start_date).days + 1` entries whose days are `start + k` in
order (hence strictly ascending, contiguous and duplicate-free), covering
exactly the days of `[start_date, end_date]`, each entry holding the observed
revenue of its day or `0.0` when the day is absent; on the spec's example
(2024-01-01 .. 2024-01-05 as epoch days 19723 .. 19727, observations on
01-02 and 01-04) it yields the gap-filled series. -/
theorem fill_missing_days_spec (obs : List (ℤ × ℝ)) (s e : ℤ) (h : s ≤ e) :
    (fillMissingDays obs s e).length = (e - s).toNat + 1 ∧
    (∀ k (hk : k < (fillMissingDays obs s e).length),
      ((fillMissingDays obs s e).get ⟨k, hk⟩).1 = s + (k : ℤ)) ∧
    ((fillMissingDays obs s e).map Prod.fst).Pairwise (· < ·) ∧
    (∀ d : ℤ, (s ≤ d ∧ d ≤ e) ↔ d ∈ (fillMissingDays obs s e).map Prod.fst) ∧
    (∀ k (hk : k < (fillMissingDays obs s e).length),
      (∃ r, (s + (k : ℤ), r) ∈ obs ∧
          (fillMissingDays obs s e).get ⟨k, hk⟩ = (s + (k : ℤ), r)) ∨
      ((s + (k : ℤ)) ∉ obs.map Prod.fst ∧
          (fillMissingDays obs s e).get ⟨k, hk⟩ = (s + (k : ℤ), 0))) ∧
    fillMissingDays [(19724, 10), (19726, 20)] 19723 19727 =
      [(19723, 0), (19724, 10), (19725, 0), (19726, 20), (19727, 0)] := by
  refine ⟨?_, ?_, fillMissingDays_days_lt obs s e, ?_, ?_, ?_⟩
  · rw [fillMissingDays_length]
    omega
  · intro k hk
    rw [fillMissingDays_get]
  · intro d
    rw [fillMissingDays_days]
    simp only [List.mem_map, List.mem_range]
    constructor
    · rintro ⟨h1, h2⟩
      exact ⟨(d - s).toNat, by omega, by omega⟩
    · rintro ⟨k, hk, rfl⟩
      omega
  · intro k hk
    rw [fillMissingDays_get]
    by_cases hmem : (s + (k : ℤ)) ∈ obs.map Prod.fst
    · obtain ⟨r, hr, hv⟩ := dictGet_key hmem
      exact Or.inl ⟨r, hr, by rw [hv]⟩
    · exact Or.inr ⟨hmem, by rw [dictGet_not_mem hmem]⟩
  · rw [fillMissingDays, (by decide : ((19727:ℤ) - 19723 + 1).toNat = 5),
      (by decide : List.range 5 = [0,1,2,3,4])]
    norm_num [dictGet]

/-- C3 witness: the guarantees instantiated at a one-day range. -/
theorem fill_missing_days_spec_witness :
    (fillMissingDays [] 0 0).length = (0 - 0 : ℤ).toNat + 1 :=
  (fill_missing_days_spec [] 0 0 (by norm_num)).1

/-- C5: a request with `start_date > end_date` fails immediately with the
`InvalidRange` error (HTTP 400, detail `start_date must be <= end_date`) and
produces nothing else, while any request with `start_date ≤ end_date`
produces a complete `AnomalyResponse`: the outcome is always all-or-nothing. -/
theorem detect_anomalies_invalid_range (obs : List (ℤ × ℝ)) (method : Method)
    (window : ℤ) (threshold : ℝ) (s e : ℤ) :
    (s > e → detectAnomalies obs method window threshold s e =
      .error "start_date must be <= end_date") ∧
    (s ≤ e → ∃ resp, detectAnomalies obs method window threshold s e =
      .ok resp) := by
  constructor
  · intro h
    rw [detectAnomalies, if_pos h]
  · intro h
    rw [detectAnomalies, if_neg (not_lt.mpr h)]
    exact ⟨_, rfl⟩

/-- C5 witness: a concrete inverted range is rejected with the error. -/
theorem detect_anomalies_invalid_range_witness :
    detectAnomalies [] Method.zscore 7 3 1 0 =
      .error "start_date must be <= end_date" :=
  (detect_anomalies_invalid_range [] Method.zscore 7 3 1 0).1 (by norm_num)

/-! ### Causality: index `i` only sees `values[0..i]` -/

theorem winVals_of_take_agree {v1 v2 : List ℝ} {i : ℕ}
    (h : v1.take (i + 1) = v2.take (i + 1)) (window : ℤ) :
    winVals v1 window i = winVals v2 window i := by
  have ht : v1.take i = v2.take i := by
    have h1 : (v1.take (i + 1)).take i = (v2.take (i + 1)).take i := by rw [h]
    rwa [List.take_take, List.take_take, min_eq_left (by omega)] at h1
  rw [winVals_eq_spec, winVals_eq_spec, ht]

theorem length_lt_of_take_agree {v1 v2 : List ℝ} {i : ℕ}
    (h : v1.take (i + 1) = v2.take (i + 1)) :
    i < v1.length ↔ i < v2.length := by
  have hl : (v1.take (i + 1)).length = (v2.take (i + 1)).length := by rw [h]
  rw [List.length_take, List.length_take] at hl
  omega

theorem getD_of_take_agree {v1 v2 : List ℝ} {i : ℕ}
    (h : v1.take (i + 1) = v2.take (i + 1)) :
    v1.getD i 0 = v2.getD i 0 := by
  have h1 : (v1.take (i + 1))[i]? = (v2.take (i + 1))[i]? := by rw [h]
  rw [List.getElem?_take, List.getElem?_take, if_pos (by omega),
    if_pos (by omega)] at h1
  rw [List.getD_eq_getElem?_getD, List.getD_eq_getElem?_getD, h1]

/-- C4: for both detectors the verdict at index `i` — whether `(i, score)` is
emitted — depends only on `values[0..i]`: two inputs agreeing on their first
`i + 1` values emit `(i, s)` on one exactly when they emit it on the other. -/
theorem detectors_causal (v1 v2 : List ℝ) (window : ℤ) (threshold : ℝ)
    (i : ℕ) (s : ℝ) (hpre : v1.take (i + 1) = v2.take (i + 1)) :
    ((i, s) ∈ detectZscore v1 window threshold ↔
      (i, s) ∈ detectZscore v2 window threshold) ∧
    ((i, s) ∈ detectIqr v1 window threshold ↔
      (i, s) ∈ detectIqr v2 window threshold) := by
  have hw := winVals_of_take_agree hpre window
  have hlen := length_lt_of_take_agree hpre
  have hd := getD_of_take_agree hpre
  constructor
  · rw [mem_detectZscore, mem_detectZscore, hw, hlen, hd]
  · rw [mem_detectIqr, mem_detectIqr, hw, hlen, hd]

/-- C4 witness: the two detectors agree at index 2 for `[0,2,5]` versus
`[0,2,5,7]`, which share their first three values. -/
theorem detectors_causal_witness :
    ((2, 4) ∈ detectZscore [0, 2, 5] 7 3 ↔
      (2, 4) ∈ detectZscore [0, 2, 5, 7] 7 3) ∧
    ((2, 4) ∈ detectIqr [0, 2, 5] 7 3 ↔
      (2, 4) ∈ detectIqr [0, 2, 5, 7] 7 3) :=
  detectors_causal [0, 2, 5] [0, 2, 5, 7] 7 3 2 4 rfl

/-! ### Concrete runs of the detectors -/

theorem zscoreStep_skip_len (vals : List ℝ) (window : ℤ) (threshold : ℝ)
    (i : ℕ) (h : (winVals vals window i).length < 2) :
    zscoreStep vals window threshold i = none := by
  simp only [zscoreStep]
  rw [if_pos h]

theorem zscoreStep_skip_std (vals : List ℝ) (window : ℤ) (threshold : ℝ)
    (i : ℕ) (h : ¬(winVals vals window i).length < 2)
    (h0 : popVar (winVals vals window i) = 0) :
    zscoreStep vals window threshold i = none := by
  simp only [zscoreStep]
  rw [if_neg h, if_pos ((stdCode_eq_zero _).mpr h0)]

theorem iqrStep_skip_len (vals : List ℝ) (window : ℤ) (threshold : ℝ)
    (i : ℕ) (h : (winVals vals window i).length < 4) :
    iqrStep vals window threshold i = none := by
  simp only [iqrStep]
  rw [if_pos h]

theorem eval_zscore_flat : detectZscore [1, 1, 1, 1, 1, 100] 5 3 = [] := by
  have hw2 : winVals [1, 1, 1, 1, 1, 100] 5 2 = [1, 1] := rfl
  have hw3 : winVals [1, 1, 1, 1, 1, 100] 5 3 = [1, 1, 1] := rfl
  have hw4 : winVals [1, 1, 1, 1, 1, 100] 5 4 = [1, 1, 1, 1] := rfl
  have hw5 : winVals [1, 1, 1, 1, 1, 100] 5 5 = [1, 1, 1, 1, 1] := rfl
  have h0 := zscoreStep_skip_len [1, 1, 1, 1, 1, 100] 5 3 0 (by norm_num [winVals])
  have h1 := zscoreStep_skip_len [1, 1, 1, 1, 1, 100] 5 3 1 (by norm_num [winVals])
  have h2 := zscoreStep_skip_std [1, 1, 1, 1, 1, 100] 5 3 2
    (by rw [hw2]; norm_num) (by rw [hw2]; norm_num [popVar, mean])
  have h3 := zscoreStep_skip_std [1, 1, 1, 1, 1, 100] 5 3 3
    (by rw [hw3]; norm_num) (by rw [hw3]; norm_num [popVar, mean])
  have h4 := zscoreStep_skip_std [1, 1, 1, 1, 1, 100] 5 3 4
    (by rw [hw4]; norm_num) (by rw [hw4]; norm_num [popVar, mean])
  have h5 := zscoreStep_skip_std [1, 1, 1, 1, 1, 100] 5 3 5
    (by rw [hw5]; norm_num) (by rw [hw5]; norm_num [popVar, mean])
  rw [detectZscore, (by norm_num : ([(1:ℝ), 1, 1, 1, 1, 100]).length = 6),
    (by decide : List.range 6 = [0, 1, 2, 3, 4, 5])]
  simp only [List.filterMap_cons, h0, h1, h2, h3, h4, h5, List.filterMap_nil]

theorem eval_zscore_025 : detectZscore [0, 2, 5] 7 3 = [(2, 4)] := by
  have hw : winVals [0, 2, 5] 7 2 = [0, 2] := rfl
  have hstd : stdCode [(0 : ℝ), 2] = 1 := by
    rw [stdCode, if_pos (by norm_num [popVar, mean]),
      (by norm_num [popVar, mean] : popVar [(0 : ℝ), 2] = 1), Real.sqrt_one]
  have h0 := zscoreStep_skip_len [0, 2, 5] 7 3 0 (by norm_num [winVals])
  have h1 := zscoreStep_skip_len [0, 2, 5] 7 3 1 (by norm_num [winVals])
  have h2 : zscoreStep [0, 2, 5] 7 3 2 = some (2, 4) := by
    simp only [zscoreStep, hw, hstd]
    rw [if_neg (by norm_num), if_neg (by norm_num), if_pos]
    · norm_num [mean]
    · norm_num [mean]
  rw [detectZscore, (by norm_num : ([(0 : ℝ), 2, 5]).length = 3),
    (by decide : List.range 3 = [0, 1, 2])]
  simp only [List.filterMap_cons, h0, h1, h2, List.filterMap_nil]

theorem quantiles4_0123_q1 : quantiles4 [(0 : ℝ), 1, 2, 3] 1 = 1 / 4 := by
  rw [quantiles4, List.Sorted.insertionSort_eq (by norm_num [List.sorted_cons])]
  norm_num [quantileExc]

theorem quantiles4_0123_q3 : quantiles4 [(0 : ℝ), 1, 2, 3] 3 = 11 / 4 := by
  rw [quantiles4, List.Sorted.insertionSort_eq (by norm_num [List.sorted_cons])]
  norm_num [quantileExc]

theorem eval_iqr_spike : detectIqr [0, 1, 2, 3, 100] 7 1 = [(4, 389 / 10)] := by
  have hw : winVals [0, 1, 2, 3, 100] 7 4 = [0, 1, 2, 3] := rfl
  have h0 := iqrStep_skip_len [0, 1, 2, 3, 100] 7 1 0 (by norm_num [winVals])
  have h1 := iqrStep_skip_len [0, 1, 2, 3, 100] 7 1 1 (by norm_num [winVals])
  have h2 := iqrStep_skip_len [0, 1, 2, 3, 100] 7 1 2 (by norm_num [winVals])
  have h3 := iqrStep_skip_len [0, 1, 2, 3, 100] 7 1 3 (by norm_num [winVals])
  have h4 : iqrStep [0, 1, 2, 3, 100] 7 1 4 = some (4, 389 / 10) := by
    simp only [iqrStep, hw, quantiles4_0123_q1, quantiles4_0123_q3]
    rw [if_neg (by norm_num), if_neg (by norm_num), if_pos (by norm_num)]
    norm_num
  rw [detectIqr, (by norm_num : ([(0 : ℝ), 1, 2, 3, 100]).length = 5),
    (by decide : List.range 5 = [0, 1, 2, 3, 4])]
  simp only [List.filterMap_cons, h0, h1, h2, h3, h4, List.filterMap_nil]

theorem eval_iqr_neg_threshold :
    detectIqr [0, 1, 2, 3, 1] 7 (-1) = [(4, -(7 / 10))] := by
  have hw : winVals [0, 1, 2, 3, 1] 7 4 = [0, 1, 2, 3] := rfl
  have h0 := iqrStep_skip_len [0, 1, 2, 3, 1] 7 (-1) 0 (by norm_num [winVals])
  have h1 := iqrStep_skip_len [0, 1, 2, 3, 1] 7 (-1) 1 (by norm_num [winVals])
  have h2 := iqrStep_skip_len [0, 1, 2, 3, 1] 7 (-1) 2 (by norm_num [winVals])
  have h3 := iqrStep_skip_len [0, 1, 2, 3, 1] 7 (-1) 3 (by norm_num [winVals])
  have h4 : iqrStep [0, 1, 2, 3, 1] 7 (-1) 4 = some (4, -(7 / 10)) := by
    simp only [iqrStep, hw, quantiles4_0123_q1, quantiles4_0123_q3]
    rw [if_neg (by norm_num), if_neg (by norm_num), if_pos (by norm_num)]
    norm_num
  rw [detectIqr, (by norm_num : ([(0 : ℝ), 1, 2, 3, 1]).length = 5),
    (by decide : List.range 5 = [0, 1, 2, 3, 4])]
  simp only [List.filterMap_cons, h0, h1, h2, h3, h4, List.filterMap_nil]

/-! ### The quartile cut points of a window are ordered -/

theorem interp_mono (A B C E δ1 δ3 : ℝ)
    (hAB : A ≤ B) (hBC : B ≤ C) (hCE : C ≤ E)
    (h14 : δ1 ≤ 4) (h30 : 0 ≤ δ3) :
    (A * (4 - δ1) + B * δ1) / 4 ≤ (C * (4 - δ3) + E * δ3) / 4 := by
  have p1 : A * (4 - δ1) ≤ B * (4 - δ1) :=
    mul_le_mul_of_nonneg_right hAB (by linarith)
  have p2 : C * δ3 ≤ E * δ3 := mul_le_mul_of_nonneg_right hCE h30
  have e1 : B * (4 - δ1) + B * δ1 = 4 * B := by ring
  have e2 : C * (4 - δ3) + C * δ3 = 4 * C := by ring
  linarith [p1, p2, e1, e2]

theorem quantileExc_one_le_three (d : List ℝ)
    (hs : List.Sorted (fun a b => a ≤ b) d) (h4 : 4 ≤ d.length) :
    quantileExc d 1 ≤ quantileExc d 3 := by
  have hget : ∀ a b : ℕ, a ≤ b → ∀ hb : b < d.length,
      d.getD a 0 ≤ d.getD b 0 := by
    intro a b hab hb
    have ha : a < d.length := Nat.lt_of_le_of_lt hab hb
    rw [List.getD_eq_getElem d 0 ha, List.getD_eq_getElem d 0 hb]
    rcases eq_or_lt_of_le hab with rfl | hlt
    · exact le_refl _
    · exact List.pairwise_iff_getElem.mp hs a b ha hb hlt
  have hA : d.getD ((d.length + 1) / 4 - 1) 0 ≤ d.getD ((d.length + 1) / 4) 0 :=
    hget _ _ (by omega) (by omega)
  have hB : d.getD ((d.length + 1) / 4) 0 ≤
      d.getD (3 * (d.length + 1) / 4 - 1) 0 := hget _ _ (by omega) (by omega)
  have hC : d.getD (3 * (d.length + 1) / 4 - 1) 0 ≤
      d.getD (3 * (d.length + 1) / 4) 0 := hget _ _ (by omega) (by omega)
  simp only [quantileExc]
  rw [(by omega : max 1 (min (d.length - 1) (1 * (d.length + 1) / 4)) =
        (d.length + 1) / 4),
      (by omega : max 1 (min (d.length - 1) (3 * (d.length + 1) / 4)) =
        3 * (d.length + 1) / 4)]
  refine interp_mono _ _ _ _ _ _ hA hB hC ?_ ?_
  · norm_cast
    rw [Int.subNatNat_eq_coe]
    omega
  · norm_cast
    rw [Int.subNatNat_eq_coe]
    omega

theorem quantiles4_one_le_three (l : List ℝ) (h4 : 4 ≤ l.length) :
    quantiles4 l 1 ≤ quantiles4 l 3 := by
  rw [quantiles4, quantiles4]
  refine quantileExc_one_le_three _ (List.sorted_insertionSort _ l) ?_
  rwa [List.length_insertionSort]

/-! ### Emptiness of detector output when every window is short -/

theorem winVals_length_lt_two (vals : List ℝ) (window : ℤ) (i : ℕ)
    (h : window < 2) : (winVals vals window i).length < 2 := by
  simp only [winVals, List.length_take, List.length_drop]
  omega

theorem detectZscore_eq_nil (vals : List ℝ) (window : ℤ) (threshold : ℝ)
    (h : ∀ i, i < vals.length → (winVals vals window i).length < 2) :
    detectZscore vals window threshold = [] := by
  rw [List.eq_nil_iff_forall_not_mem]
  rintro ⟨i, z⟩ hm
  rw [mem_detectZscore] at hm
  have := h i hm.1
  omega

theorem detectIqr_eq_nil (vals : List ℝ) (window : ℤ) (threshold : ℝ)
    (h : ∀ i, i < vals.length → (winVals vals window i).length < 4) :
    detectIqr vals window threshold = [] := by
  rw [List.eq_nil_iff_forall_not_mem]
  rintro ⟨i, s⟩ hm
  rw [mem_detectIqr] at hm
  have := h i hm.1
  omega

/-- C2 (amended): the IQR detector emits `(i, s)` exactly when the causal
window `W = values[max(0, i-window) .. i)` has at least 4 values, its
interquartile range `IQR = Q3 - Q1` (quartiles by the linear-interpolation
rule of `statistics.quantiles`, four equal-probability groups) is nonzero,
and either `values[i] > Q3 + threshold*IQR` with `s = (values[i] - Q3)/IQR`,
or — only when that upper-fence test fails — `values[i] < Q1 -
threshold*IQR` with `s = (Q1 - values[i])/IQR`; the upper branch takes
priority, so when both fences are crossed only the upper verdict is emitted. -/
theorem iqr_characterization (vals : List ℝ) (window : ℤ)
    (threshold s : ℝ) (i : ℕ) :
    (i, s) ∈ detectIqr vals window threshold ↔
      ∃ hi : i < vals.length,
        4 ≤ ((vals.take i).drop ((max 0 ((i : ℤ) - window)).toNat)).length ∧
        quantiles4 ((vals.take i).drop ((max 0 ((i : ℤ) - window)).toNat)) 3 -
          quantiles4 ((vals.take i).drop ((max 0 ((i : ℤ) - window)).toNat)) 1
          ≠ 0 ∧
        ((vals.get ⟨i, hi⟩ >
            quantiles4 ((vals.take i).drop
              ((max 0 ((i : ℤ) - window)).toNat)) 3 +
            threshold * (quantiles4 ((vals.take i).drop
                ((max 0 ((i : ℤ) - window)).toNat)) 3 -
              quantiles4 ((vals.take i).drop
                ((max 0 ((i : ℤ) - window)).toNat)) 1) ∧
          s = (vals.get ⟨i, hi⟩ -
              quantiles4 ((vals.take i).drop
                ((max 0 ((i : ℤ) - window)).toNat)) 3) /
            (quantiles4 ((vals.take i).drop
                ((max 0 ((i : ℤ) - window)).toNat)) 3 -
              quantiles4 ((vals.take i).drop
                ((max 0 ((i : ℤ) - window)).toNat)) 1)) ∨
         (¬ vals.get ⟨i, hi⟩ >
            quantiles4 ((vals.take i).drop
              ((max 0 ((i : ℤ) - window)).toNat)) 3 +
            threshold * (quantiles4 ((vals.take i).drop
                ((max 0 ((i : ℤ) - window)).toNat)) 3 -
              quantiles4 ((vals.take i).drop
                ((max 0 ((i : ℤ) - window)).toNat)) 1) ∧
          vals.get ⟨i, hi⟩ <
            quantiles4 ((vals.take i).drop
              ((max 0 ((i : ℤ) - window)).toNat)) 1 -
            threshold * (quantiles4 ((vals.take i).drop
                ((max 0 ((i : ℤ) - window)).toNat)) 3 -
              quantiles4 ((vals.take i).drop
                ((max 0 ((i : ℤ) - window)).toNat)) 1) ∧
          s = (quantiles4 ((vals.take i).drop
                ((max 0 ((i : ℤ) - window)).toNat)) 1 - vals.get ⟨i, hi⟩) /
            (quantiles4 ((vals.take i).drop
                ((max 0 ((i : ℤ) - window)).toNat)) 3 -
              quantiles4 ((vals.take i).drop
                ((max 0 ((i : ℤ) - window)).toNat)) 1))) := by
  rw [mem_detectIqr, ← winVals_eq_spec]
  constructor
  · rintro ⟨hi, h⟩
    refine ⟨hi, ?_⟩
    rwa [List.get_eq_getElem, ← List.getD_eq_getElem vals 0 hi]
  · rintro ⟨hi, h⟩
    refine ⟨hi, ?_⟩
    rwa [List.get_eq_getElem, ← List.getD_eq_getElem vals 0 hi] at h

/-- C2 counterexample: at `values = [0,1,2,3,1]`, `window = 7`,
`threshold = -1`, index 4 has window `[0,1,2,3]` (length 4, `IQR = 5/2 ≠ 0`)
and `values[4] = 1` is below the lower fence `Q1 - threshold*IQR`, yet the
pair `(4, (Q1 - values[4])/IQR)` the claim promises for that condition is not
emitted: the upper fence is also crossed and the `elif` emits only the upper
verdict. -/
theorem iqr_lower_fence_counterexample :
    4 ≤ (winVals [0, 1, 2, 3, 1] 7 4).length ∧
    quantiles4 (winVals [0, 1, 2, 3, 1] 7 4) 3 -
        quantiles4 (winVals [0, 1, 2, 3, 1] 7 4) 1 ≠ 0 ∧
    ([0, 1, 2, 3, 1] : List ℝ).getD 4 0 <
      quantiles4 (winVals [0, 1, 2, 3, 1] 7 4) 1 -
        (-1) * (quantiles4 (winVals [0, 1, 2, 3, 1] 7 4) 3 -
          quantiles4 (winVals [0, 1, 2, 3, 1] 7 4) 1) ∧
    (4, (quantiles4 (winVals [0, 1, 2, 3, 1] 7 4) 1 -
          ([0, 1, 2, 3, 1] : List ℝ).getD 4 0) /
        (quantiles4 (winVals [0, 1, 2, 3, 1] 7 4) 3 -
          quantiles4 (winVals [0, 1, 2, 3, 1] 7 4) 1)) ∉
      detectIqr [0, 1, 2, 3, 1] 7 (-1) := by
  have hw : winVals [0, 1, 2, 3, 1] 7 4 = [0, 1, 2, 3] := rfl
  have hv : ([0, 1, 2, 3, 1] : List ℝ).getD 4 0 = 1 := rfl
  rw [hw, hv, quantiles4_0123_q1, quantiles4_0123_q3, eval_iqr_neg_threshold]
  norm_num [List.mem_singleton, Prod.mk.injEq]

/-- C6: on `values = [1,1,1,1,1,100]`, `window = 5`, `threshold = 3.0` the
baseline preceding index 5 is the constant `[1,1,1,1,1]`, its population
standard deviation is zero, so index 5 is skipped by the zero-std rule and
the detector reports no anomalies at all despite the outlier. -/
theorem zscore_flat_no_flag :
    popVar (winVals [1, 1, 1, 1, 1, 100] 5 5) = 0 ∧
    stdCode (winVals [1, 1, 1, 1, 1, 100] 5 5) = 0 ∧
    detectZscore [1, 1, 1, 1, 1, 100] 5 3 = [] := by
  have hw5 : winVals [1, 1, 1, 1, 1, 100] 5 5 = [1, 1, 1, 1, 1] := rfl
  have hv : popVar (winVals [1, 1, 1, 1, 1, 100] 5 5) = 0 := by
    rw [hw5]
    norm_num [popVar, mean]
  exact ⟨hv, (stdCode_eq_zero _).mpr hv, eval_zscore_flat⟩

/-- C7 (amended): the core detectors called directly with `window < 2` do
not signal rejection — every index is skipped for insufficient history and
they silently return the empty anomaly list; `window < 2` is rejected only
by the boundary layer's query validation (`ge=2`). -/
theorem degenerate_window_silent (vals : List ℝ) (window : ℤ) (threshold : ℝ)
    (h : window < 2) :
    detectZscore vals window threshold = [] ∧
    detectIqr vals window threshold = [] :=
  ⟨detectZscore_eq_nil vals window threshold fun i _ =>
      winVals_length_lt_two vals window i h,
   detectIqr_eq_nil vals window threshold fun i _ => by
      have := winVals_length_lt_two vals window i h
      omega⟩

/-- C7 witness: with `window = 1` both detectors return the empty list. -/
theorem degenerate_window_silent_witness :
    detectZscore [0, 5, 0] 1 1 = [] ∧ detectIqr [0, 5, 0] 1 1 = [] :=
  degenerate_window_silent [0, 5, 0] 1 1 (by norm_num)

/-- C7 counterexample: called directly with the degenerate `window = 1` on a
series with an obvious spike, the detectors do not reject the request — each
evaluates to a (here empty) anomaly list. -/
theorem degenerate_window_counterexample :
    detectZscore [0, 5, 0] 1 1 = [] ∧ detectIqr [0, 5, 0] 1 1 = [] :=
  ⟨detectZscore_eq_nil [0, 5, 0] 1 1 fun i _ =>
      winVals_length_lt_two [0, 5, 0] 1 i (by norm_num),
   detectIqr_eq_nil [0, 5, 0] 1 1 fun i _ => by
      have := winVals_length_lt_two [0, 5, 0] 1 i (by norm_num)
      omega⟩

/-- C8: with a positive threshold every score the IQR detector emits is
strictly positive — it measures the distance beyond the nearer fence in IQR
units, direction being encoded by which branch fired — and no single value
can satisfy both fence conditions of a window at once. -/
theorem iqr_scores_positive (vals : List ℝ) (window : ℤ) (threshold : ℝ)
    (ht : 0 < threshold) :
    (∀ p ∈ detectIqr vals window threshold, 0 < p.2) ∧
    (∀ (v : ℝ) (W : List ℝ), 4 ≤ W.length →
      quantiles4 W 3 - quantiles4 W 1 ≠ 0 →
      ¬(v > quantiles4 W 3 + threshold * (quantiles4 W 3 - quantiles4 W 1) ∧
        v < quantiles4 W 1 - threshold * (quantiles4 W 3 - quantiles4 W 1)))
    := by
  have key : ∀ W : List ℝ, 4 ≤ W.length →
      quantiles4 W 3 - quantiles4 W 1 ≠ 0 →
      0 < quantiles4 W 3 - quantiles4 W 1 := by
    intro W h4 hne
    rcases lt_or_eq_of_le (sub_nonneg.mpr (quantiles4_one_le_three W h4)) with
      h | h
    · exact h
    · exact absurd h.symm hne
  constructor
  · rintro ⟨i, s⟩ hm
    rw [mem_detectIqr] at hm
    obtain ⟨hi, h4, hne, hcase⟩ := hm
    have hiqr := key _ h4 hne
    have hmul := mul_pos ht hiqr
    rcases hcase with ⟨hgt, rfl⟩ | ⟨_, hlt, rfl⟩
    · exact div_pos (by linarith) hiqr
    · exact div_pos (by linarith) hiqr
  · rintro v W h4 hne ⟨h1, h2⟩
    have hiqr := key W h4 hne
    have hmul := mul_pos ht hiqr
    linarith

/-- C8 witness: the concrete upper-fence anomaly of
`detectIqr [0,1,2,3,100] 7 1` has a positive score. -/
theorem iqr_scores_positive_witness : (0 : ℝ) < 389 / 10 :=
  (iqr_scores_positive [0, 1, 2, 3, 100] 7 1 (by norm_num)).1 (4, 389 / 10)
    (by rw [eval_iqr_spike]; exact List.mem_singleton_self _)

/-! ### Emitted indices are strictly increasing and in bounds -/

theorem zscoreStep_fst (vals : List ℝ) (window : ℤ) (threshold : ℝ) (i : ℕ)
    (p : ℕ × ℝ) (h : zscoreStep vals window threshold i = some p) :
    p.1 = i := by
  simp only [zscoreStep] at h
  split_ifs at h
  all_goals cases h
  rfl

theorem iqrStep_fst (vals : List ℝ) (window : ℤ) (threshold : ℝ) (i : ℕ)
    (p : ℕ × ℝ) (h : iqrStep vals window threshold i = some p) :
    p.1 = i := by
  simp only [iqrStep] at h
  split_ifs at h
  all_goals cases h
  all_goals rfl

theorem pairwise_fst_filterMap (f : ℕ → Option (ℕ × ℝ))
    (hf : ∀ i p, f i = some p → p.1 = i) (l : List ℕ) :
    l.Pairwise (· < ·) →
      (l.filterMap f).Pairwise (fun a b => a.1 < b.1) := by
  induction l with
  | nil =>
    intro _
    simp
  | cons a l ih =>
    intro hl
    rw [List.pairwise_cons] at hl
    rw [List.filterMap_cons]
    cases hfa : f a with
    | none => exact ih hl.2
    | some p =>
      rw [List.pairwise_cons]
      refine ⟨?_, ih hl.2⟩
      intro q hq
      obtain ⟨b, hb, hqb⟩ := List.mem_filterMap.mp hq
      rw [hf a p hfa, hf b q hqb]
      exact hl.1 b hb

theorem detectZscore_pairwise (vals : List ℝ) (window : ℤ) (threshold : ℝ) :
    (detectZscore vals window threshold).Pairwise (fun a b => a.1 < b.1) :=
  pairwise_fst_filterMap _ (zscoreStep_fst vals window threshold) _
    (List.pairwise_lt_range _)

theorem detectIqr_pairwise (vals : List ℝ) (window : ℤ) (threshold : ℝ) :
    (detectIqr vals window threshold).Pairwise (fun a b => a.1 < b.1) :=
  pairwise_fst_filterMap _ (iqrStep_fst vals window threshold) _
    (List.pairwise_lt_range _)

theorem detectZscore_bounds (vals : List ℝ) (window : ℤ) (threshold : ℝ) :
    ∀ p ∈ detectZscore vals window threshold,
      2 ≤ p.1 ∧ p.1 < vals.length := by
  rintro ⟨i, z⟩ hm
  rw [mem_detectZscore] at hm
  have hle := winVals_length_le vals window i
  have h2 := hm.2.1
  exact ⟨by omega, hm.1⟩

theorem detectIqr_bounds (vals : List ℝ) (window : ℤ) (threshold : ℝ) :
    ∀ p ∈ detectIqr vals window threshold,
      4 ≤ p.1 ∧ p.1 < vals.length := by
  rintro ⟨i, s⟩ hm
  rw [mem_detectIqr] at hm
  have hle := winVals_length_le vals window i
  have h4 := hm.2.1
  exact ⟨by omega, hm.1⟩

theorem detectZscore_nil_of_len_le_two (vals : List ℝ) (window : ℤ)
    (threshold : ℝ) (h : vals.length ≤ 2) :
    detectZscore vals window threshold = [] := by
  rw [List.eq_nil_iff_forall_not_mem]
  intro p hm
  have := detectZscore_bounds vals window threshold p hm
  omega

theorem detectIqr_nil_of_len_le_four (vals : List ℝ) (window : ℤ)
    (threshold : ℝ) (h : vals.length ≤ 4) :
    detectIqr vals window threshold = [] := by
  rw [List.eq_nil_iff_forall_not_mem]
  intro p hm
  have := detectIqr_bounds vals window threshold p hm
  omega

/-! ### The assembled response -/

theorem detectAnomalies_ok (obs : List (ℤ × ℝ)) (method : Method)
    (window : ℤ) (threshold : ℝ) (s e : ℤ) (h : ¬s > e) :
    detectAnomalies obs method window threshold s e = .ok
      { series := fillMissingDays obs s e
        anomalies :=
          (match method with
            | Method.zscore =>
                detectZscore ((fillMissingDays obs s e).map Prod.snd) window
                  threshold
            | Method.iqr =>
                detectIqr ((fillMissingDays obs s e).map Prod.snd) window
                  threshold).map fun p : ℕ × ℝ =>
            { day := ((fillMissingDays obs s e).map Prod.fst).getD p.1 0
              revenue := ((fillMissingDays obs s e).map Prod.snd).getD p.1 0
              score := p.2
              reason := mkReason method window }
        method := method
        window := window
        threshold := threshold } := by
  rw [detectAnomalies, if_neg h]

theorem fill_days_getD (obs : List (ℤ × ℝ)) (s e : ℤ) (k : ℕ)
    (hk : k < (e - s + 1).toNat) :
    ((fillMissingDays obs s e).map Prod.fst).getD k 0 = s + (k : ℤ) := by
  rw [fillMissingDays_days]
  rw [List.getD_eq_getElem _ 0 (by simpa using hk)]
  simp

theorem fill_values_length (obs : List (ℤ × ℝ)) (s e : ℤ) :
    ((fillMissingDays obs s e).map Prod.snd).length = (e - s + 1).toNat := by
  rw [List.length_map, fillMissingDays_length]

theorem formatted_days_sorted (obs : List (ℤ × ℝ)) (s e : ℤ)
    (raw : List (ℕ × ℝ)) (method : Method) (window : ℤ)
    (hpw : raw.Pairwise (fun a b => a.1 < b.1))
    (hbound : ∀ p ∈ raw, p.1 < (e - s + 1).toNat) :
    ((raw.map fun p =>
        ({ day := ((fillMissingDays obs s e).map Prod.fst).getD p.1 0
           revenue := ((fillMissingDays obs s e).map Prod.snd).getD p.1 0
           score := p.2
           reason := mkReason method window } : AnomalyPoint)).map
      AnomalyPoint.day).Pairwise (· < ·) := by
  rw [List.map_map, List.pairwise_map]
  refine hpw.imp_of_mem ?_
  intro a b ha hb hab
  simp only [Function.comp_apply]
  rw [fill_days_getD obs s e a.1 (hbound a ha),
    fill_days_getD obs s e b.1 (hbound b hb)]
  omega

theorem eval_detectAnomalies_nil :
    detectAnomalies [] Method.zscore 7 3 0 0 =
      .ok ⟨[(0, 0)], [], Method.zscore, 7, 3⟩ := by
  have hdz : detectZscore ((fillMissingDays [] 0 0).map Prod.snd) 7 3 = [] :=
    detectZscore_nil_of_len_le_two _ 7 3
      (by rw [fill_values_length]; norm_num)
  rw [detectAnomalies_ok [] Method.zscore 7 3 0 0 (by norm_num)]
  simp only [hdz, List.map_nil]
  rfl

/-- C9: the detectors emit their `(index, score)` pairs with strictly
increasing indices, and the formatter preserves that order, so every
successful `detect_anomalies` response lists its anomalies in strictly
ascending chronological (day) order. -/
theorem anomalies_chronological (vals : List ℝ) (obs : List (ℤ × ℝ))
    (method : Method) (window : ℤ) (threshold : ℝ) (s e : ℤ)
    (resp : AnomalyResponse) :
    (detectZscore vals window threshold).Pairwise (fun a b => a.1 < b.1) ∧
    (detectIqr vals window threshold).Pairwise (fun a b => a.1 < b.1) ∧
    (detectAnomalies obs method window threshold s e = .ok resp →
      (resp.anomalies.map AnomalyPoint.day).Pairwise (· < ·)) := by
  refine ⟨detectZscore_pairwise vals window threshold,
    detectIqr_pairwise vals window threshold, ?_⟩
  intro h
  by_cases hse : s > e
  · rw [detectAnomalies, if_pos hse] at h
    cases h
  · rw [detectAnomalies_ok obs method window threshold s e hse] at h
    injection h with h
    subst h
    cases method with
    | zscore =>
      refine formatted_days_sorted obs s e _ Method.zscore window
        (detectZscore_pairwise _ window threshold) ?_
      intro p hp
      have hb := (detectZscore_bounds _ window threshold p hp).2
      rwa [fill_values_length] at hb
    | iqr =>
      refine formatted_days_sorted obs s e _ Method.iqr window
        (detectIqr_pairwise _ window threshold) ?_
      intro p hp
      have hb := (detectIqr_bounds _ window threshold p hp).2
      rwa [fill_values_length] at hb

/-- C9 witness: the ordering fact applied to a concrete successful run. -/
theorem anomalies_chronological_witness :
    ((([] : List AnomalyPoint)).map AnomalyPoint.day).Pairwise (· < ·) :=
  (anomalies_chronological [] [] Method.zscore 7 3 0 0
    ⟨[(0, 0)], [], Method.zscore, 7, 3⟩).2.2 eval_detectAnomalies_nil

/-- C10: every index the z-score detector emits lies in `[2, n)` and every
index the IQR detector emits lies in `[4, n)` for an input of length `n`, so
the formatter's `days[index]` / `values[index]` lookups are always in
bounds; in particular a one-point series (as produced by `start_date =
end_date`) yields no anomalies under either method, end to end. -/
theorem emitted_indices_in_bounds (vals : List ℝ) (window : ℤ)
    (threshold : ℝ) (obs : List (ℤ × ℝ)) (method : Method) (s : ℤ)
    (resp : AnomalyResponse) :
    (∀ p ∈ detectZscore vals window threshold,
      2 ≤ p.1 ∧ p.1 < vals.length) ∧
    (∀ p ∈ detectIqr vals window threshold,
      4 ≤ p.1 ∧ p.1 < vals.length) ∧
    (vals.length = 1 → detectZscore vals window threshold = [] ∧
      detectIqr vals window threshold = []) ∧
    (detectAnomalies obs method window threshold s s = .ok resp →
      resp.anomalies = []) := by
  refine ⟨detectZscore_bounds vals window threshold,
    detectIqr_bounds vals window threshold, ?_, ?_⟩
  · intro h1
    exact ⟨detectZscore_nil_of_len_le_two vals window threshold (by omega),
      detectIqr_nil_of_len_le_four vals window threshold (by omega)⟩
  · intro h
    rw [detectAnomalies_ok obs method window threshold s s (by omega)] at h
    injection h with h
    subst h
    have hlen : ((fillMissingDays obs s s).map Prod.snd).length ≤ 2 := by
      rw [fill_values_length]
      omega
    cases method with
    | zscore =>
      simp only [detectZscore_nil_of_len_le_two _ window threshold hlen,
        List.map_nil]
    | iqr =>
      simp only [detectIqr_nil_of_len_le_four
        ((fillMissingDays obs s s).map Prod.snd) window threshold
        (by omega), List.map_nil]

/-- C10 witness: the bounds applied to the concrete emitted pairs of the two
detectors. -/
theorem emitted_indices_in_bounds_witness :
    2 ≤ ((2, (4 : ℝ)) : ℕ × ℝ).1 ∧
      ((2, (4 : ℝ)) : ℕ × ℝ).1 < ([(0 : ℝ), 2, 5]).length :=
  (emitted_indices_in_bounds [0, 2, 5] 7 3 [] Method.zscore 0
    ⟨[(0, 0)], [], Method.zscore, 7, 3⟩).1 (2, 4)
    (by rw [eval_zscore_025]; exact List.mem_singleton_self _)

end Ecom
